import Mathlib

/-!
Verification development for `qubesmgmt/app.py` (Qubes management client).

The Python module is shallowly embedded below.  Strings are Lean `String`s;
Python's `str.split`, `str.split(sep, 1)` and `bytes.splitlines` are modelled
by structurally recursive char-list functions with the same semantics on the
ascii, newline-separated payloads the protocol uses.  Python `dict`s are
modelled as association lists with unique keys, insertion order preserved,
assignment replacing the value in place and `del` removing the entry, as in
CPython.  Exceptions become `Except` values.
-/

deriving instance DecidableEq for Except

namespace QubesApp

/-- Python `str.encode('ascii')`: the byte values of a string's characters. -/
def asciiBytes (s : String) : List Nat := s.toList.map Char.toNat

/-- Python-style exceptions that the embedded code can raise. -/
inductive PyErr where
  | valueError
  | keyError (k : String)
  | assertionError
deriving DecidableEq, Repr

/-- A raised exception value: the exception's class name together with the
positional arguments it was constructed with. -/
structure RaisedExc where
  excClass : String
  args : List String
deriving DecidableEq, Repr

/-- Worker for `splitAll`: accumulates the current field in reverse. -/
def splitAllAux (sep : Char) : List Char → List Char → List String
  | [], acc => [String.mk acc.reverse]
  | c :: rest, acc =>
    if c = sep then String.mk acc.reverse :: splitAllAux sep rest []
    else splitAllAux sep rest (c :: acc)

/-- Python `s.split(sep)` for a one-character separator: splits at every
occurrence, keeping empty fields (`''.split(sep) == ['']`). -/
def splitAll (sep : Char) (s : String) : List String := splitAllAux sep s.toList []

/-- Worker for `splitFirst`. -/
def splitFirstAux (sep : Char) : List Char → List Char → Option (String × String)
  | [], _ => none
  | c :: rest, acc =>
    if c = sep then some (String.mk acc.reverse, String.mk rest)
    else splitFirstAux sep rest (c :: acc)

/-- Python `s.split(sep, 1)` for a one-character separator, as used for
two-target unpacking: `some (before, after)` at the first occurrence of
`sep`, and `none` when `sep` does not occur (in which case the Python
unpacking `a, b = s.split(sep, 1)` raises `ValueError`). -/
def splitFirst (sep : Char) (s : String) : Option (String × String) :=
  splitFirstAux sep s.toList []

/-- Python `splitlines()` on the newline-separated ascii payloads of this
protocol: the segments between newline characters, with no trailing empty
segment when the payload ends in a newline, and `[]` for the empty payload. -/
def splitlinesPy (s : String) : List String :=
  if s.toList.getLast? = some '\n' then (splitAll '\n' s).dropLast
  else if s = "" then []
  else splitAll '\n' s

/-- `mapOpt f l` is `some (map f l)` when `f` succeeds everywhere, else
`none`: the evaluation order of a Python loop whose body can raise. -/
def mapOpt {α β : Type} (f : α → Option β) : List α → Option (List β)
  | [] => some []
  | a :: rest =>
    match f a with
    | none => none
    | some b =>
      match mapOpt f rest with
      | none => none
      | some bs => some (b :: bs)

/-- Python dict lookup `d[k]` (as an `Option`). -/
def dictGet {α : Type} : List (String × α) → String → Option α
  | [], _ => none
  | (k0, v) :: rest, k => if k0 = k then some v else dictGet rest k

/-- Python dict assignment `d[k] = v`: replaces the value at an existing key
in place, otherwise appends the new binding at the end. -/
def dictInsert {α : Type} : List (String × α) → String → α → List (String × α)
  | [], k, v => [(k, v)]
  | (k0, v0) :: rest, k, v =>
    if k0 = k then (k0, v) :: rest else (k0, v0) :: dictInsert rest k v

/-- Python `del d[k]`: removes the binding of `k`. -/
def dictErase {α : Type} : List (String × α) → String → List (String × α)
  | [], _ => []
  | (k0, v0) :: rest, k =>
    if k0 = k then dictErase rest k else (k0, v0) :: dictErase rest k

/-- Properties of one listed object: a dict from property name to value. -/
abbrev Props := List (String × String)

/-- The parsed `mgmt.vm.List` snapshot: a dict from VM name to properties. -/
abbrev Snap := List (String × Props)

/-- Modelled from the spec: the wrapper classes of `qubesmgmt.vm` and the
entry-point lookup `qubesmgmt.utils.get_entry_point_one` are outside
`app.py`; per spec section 3 a WrapperObject is identified by
`(name, class)` and holds no other protocol state, so a wrapper instance is
modelled by its `name`, its class discriminator `cls`
(Python `vm.__class__.__name__`), and a numeric allocation id `oid` that
models Python object identity. -/
structure VMObj where
  oid : Nat
  name : String
  cls : String
deriving DecidableEq, Repr

/-- The `_vm_objects` instance table: a dict from name to wrapper instance. -/
abbrev ObjTable := List (String × VMObj)

/-- The mutable state of a `VMCollection` (`app.py` 40-45): the cached
listing `_vm_list` (`none` when invalidated), the wrapper instance table
`_vm_objects`, and the next free allocation id for fresh wrapper objects. -/
structure CollState where
  vm_list : Option Snap
  vm_objects : ObjTable
  fresh : Nat
deriving DecidableEq, Repr

/-- One line of the listing payload (`app.py` 62-66):
`vm_name, props = vm_data.decode('ascii').split(' ', 1)`, then
`props.split(' ')`, then `dict([vm_prop.split('=', 1) for ...])`.
`none` models the `ValueError` raised when the line has no space or some
property token has no `=`. -/
def parseVMLine (line : String) : Option (String × Props) :=
  match splitFirst ' ' line with
  | none => none
  | some (vm_name, props) =>
    match mapOpt (splitFirst '=') (splitAll ' ' props) with
    | none => none
    | some pairs => some (vm_name, pairs.foldl (fun d kv => dictInsert d kv.1 kv.2) [])

/-- The whole listing payload, line by line (`app.py` 61-66). -/
def parseVMListing (payload : String) : Option (List (String × Props)) :=
  mapOpt parseVMLine (splitlinesPy payload)

/-- Worker building `new_vm_list` from the parsed lines:
`new_vm_list[vm_name] = dict(...)` per line (`app.py` 65-66). -/
def buildSnapAux : List (String × Props) → Snap → Snap
  | [], acc => acc
  | e :: rest, acc => buildSnapAux rest (dictInsert acc e.1 e.2)

/-- The `new_vm_list` dict built from the parsed listing lines. -/
def buildSnap (entries : List (String × Props)) : Snap := buildSnapAux entries []

namespace VMCollection

/-- `VMCollection.clear_cache` (`app.py` 47-49): forgets the cached listing
only. -/
def clear_cache (st : CollState) : CollState := { st with vm_list := none }

/-- One iteration of the reconciliation loop of `refresh_cache`
(`app.py` 69-80), applied to the snapshot entry `e` of `list(items())`
against the live table `objs` and the new listing `vl`: drop the instance
if its live name left the listing, drop it if its class changed (looking up
`['class']` raises `KeyError` when absent), and re-key it under its live
name when that differs from its stored key. -/
def reconcileStep (vl : Snap) (objs : ObjTable) (e : String × VMObj) :
    Except PyErr ObjTable :=
  match dictGet vl e.2.name with
  | none => .ok (dictErase objs e.1)
  | some props =>
    match dictGet props "class" with
    | none => .error (.keyError "class")
    | some c =>
      if e.2.cls ≠ c then .ok (dictErase objs e.1)
      else if e.1 ≠ e.2.name then .ok (dictErase (dictInsert objs e.2.name e.2) e.1)
      else .ok objs

/-- The reconciliation loop of `refresh_cache` (`app.py` 69-80): iterates
over the snapshot of the instance table taken before the loop, threading
the live table through each step. -/
def reconcileAux (vl : Snap) : List (String × VMObj) → ObjTable → Except PyErr ObjTable
  | [], objs => .ok objs
  | e :: rest, objs =>
    match reconcileStep vl objs e with
    | .error err => .error err
    | .ok objs2 => reconcileAux vl rest objs2

/-- `VMCollection.refresh_cache` (`app.py` 51-80).  The `mgmt.vm.List`
dispatcher call is modelled by the `payload` argument; the returned `Nat`
counts how many dispatcher calls the invocation issued (0 on the cached
early return, 1 otherwise).  A parse failure is the `ValueError` of the
listing loop; reconciliation may raise `KeyError`. -/
def refresh_cache (payload : String) (force : Bool) (st : CollState) :
    Except PyErr (CollState × Nat) :=
  if force = false ∧ st.vm_list ≠ none then .ok (st, 0)
  else
    match parseVMListing payload with
    | none => .error .valueError
    | some entries =>
      match reconcileAux (buildSnap entries) st.vm_objects st.vm_objects with
      | .error err => .error err
      | .ok objs =>
        .ok ({ st with vm_list := some (buildSnap entries), vm_objects := objs }, 1)

/-- `VMCollection.__getitem__` (`app.py` 82-89).  `item not in self` first
triggers a non-forced `refresh_cache` (via `__contains__`, `app.py` 91-93),
whose dispatcher call is modelled by `payload`; absence raises
`KeyError(item)`.  Instantiation of a missing wrapper looks up
`self._vm_list[item]['class']` (raising `KeyError` when the class property
is absent); the entry-point construction `cls(self.app, item)` is modelled
from the spec (section 3) as allocating a fresh wrapper whose class
discriminator is the looked-up class string. -/
def getItem (payload : String) (item : String) (st : CollState) :
    Except PyErr (VMObj × CollState) :=
  match refresh_cache payload false st with
  | .error err => .error err
  | .ok (st1, _) =>
    match dictGet (st1.vm_list.getD []) item with
    | none => .error (.keyError item)
    | some props =>
      match dictGet st1.vm_objects item with
      | some vm => .ok (vm, st1)
      | none =>
        match dictGet props "class" with
        | none => .error (.keyError "class")
        | some c =>
          let vm : VMObj := ⟨st1.fresh, item, c⟩
          .ok (vm,
            { st1 with
              vm_objects := dictInsert st1.vm_objects item vm
              fresh := st1.fresh + 1 })

/-- `VMCollection.keys` (`app.py` 100-103): a non-forced refresh, then the
key view of `_vm_list` (which the refresh has just made non-`none`). -/
def keys (payload : String) (st : CollState) :
    Except PyErr (List String × CollState × Nat) :=
  match refresh_cache payload false st with
  | .error err => .error err
  | .ok (st1, n) => .ok ((st1.vm_list.getD []).map Prod.fst, st1, n)

end VMCollection

/-- The class property recorded for `n` in the currently cached listing. -/
def snapClassOf (st : CollState) (n : String) : Option String :=
  match dictGet (st.vm_list.getD []) n with
  | none => none
  | some props => dictGet props "class"

namespace QubesLocal

/-- The field framing loop of `QubesLocal.qubesd_call` (`app.py` 194-198):
for each of the four fields, the field's ascii bytes are sent when the
field is not `None`, and a single null byte is then sent unconditionally. -/
def frameFields : List (Option String) → List Nat
  | [] => []
  | f :: rest =>
    (match f with
     | some s => asciiBytes s
     | none => []) ++ 0 :: frameFields rest

/-- The full byte sequence written by `QubesLocal.qubesd_call dest method
arg payload` (`app.py` 186-200): the framed fields in the order
`('dom0', method, dest, arg)`, then the raw payload when present. -/
def qubesd_call_bytes (dest method : String) (arg : Option String)
    (payload : Option (List Nat)) : List Nat :=
  frameFields [some "dom0", some method, some dest, arg] ++ payload.getD []

/-- The framing as the specification words it, for comparison with the
code: absent optional fields are skipped entirely, emitting no empty
null-terminated token. -/
def frameFieldsSpec : List (Option String) → List Nat
  | [] => []
  | some s :: rest => asciiBytes s ++ 0 :: frameFieldsSpec rest
  | none :: rest => frameFieldsSpec rest

/-- The full request byte sequence under the specification's wording of the
framing rule. -/
def qubesd_call_bytes_spec (dest method : String) (arg : Option String)
    (payload : Option (List Nat)) : List Nat :=
  frameFieldsSpec [some "dom0", some method, some dest, arg] ++ payload.getD []

end QubesLocal

/-- The observable outcome of the helper subprocess spawned by
`QubesRemote.qubesd_call` (`app.py` 220-223). -/
structure SubprocResult where
  returncode : Int
  stdout : String
  stderr : String
deriving DecidableEq, Repr

namespace QubesRemote

/-- The composed qrexec service name (`app.py` 217-219): `method` alone, or
`method + '+' + arg`. -/
def service_name (method : String) (arg : Option String) : String :=
  match arg with
  | some a => method ++ "+" ++ a
  | none => method

/-- The error handling of `QubesRemote.qubesd_call` (`app.py` 224-229): a
non-zero return code raises `qubesmgmt.exc.QubesException` with the format
string `'Service call error: %s'` and the decoded stderr as its arguments;
otherwise stdout is handed to `_parse_qubesd_response` (defined in
`qubesmgmt.base`, outside this module), modelled here as the raw stdout. -/
def qubesd_call_result (r : SubprocResult) : Except RaisedExc String :=
  if r.returncode ≠ 0 then
    .error ⟨ "QubesException", ["Service call error: %s", r.stderr]⟩
  else .ok r.stdout

end QubesRemote

namespace QubesBase

/-- The parsing part of `QubesBase._refresh_pool_drivers` (`app.py`
134-144): asserts the payload ends with a newline, then per non-empty line
splits the driver name from the space-separated option list. -/
def parse_pool_drivers (payload : String) :
    Except PyErr (List (String × List String)) :=
  if payload.toList.getLast? ≠ some '\n' then .error .assertionError
  else
    (splitlinesPy payload).foldlM
      (fun d line =>
        if line = "" then .ok d
        else
          match splitFirst ' ' line with
          | none => .error .valueError
          | some (driver_name, driver_options) =>
            .ok (dictInsert d driver_name (splitAll ' ' driver_options)))
      []

/-- The lexicographic comparison of ascii strings that Python applies when
sorting. -/
def strLex (a b : String) : Prop := List.Lex (· < ·) a.toList b.toList

/-- The order in which `sorted(kwargs.items())` arranges two options:
Python tuple comparison, keys first, then values. -/
def pairLe (a b : String × String) : Prop :=
  strLex a.1 b.1 ∨ (a.1 = b.1 ∧ (strLex a.2 b.2 ∨ a.2 = b.2))

instance : DecidableRel strLex := fun a b => by
  unfold strLex; infer_instance

instance : DecidableRel pairLe := fun a b => by
  unfold pairLe; infer_instance

theorem toList_inj {s t : String} (h : s.toList = t.toList) : s = t := by
  cases s; cases t; exact congrArg String.mk (by simpa using h)

theorem strLex_asymm {s t : String} (h1 : strLex s t) (h2 : strLex t s) : False := by
  unfold strLex at h1 h2
  exact IsAsymm.asymm _ _ h1 h2

theorem strLex_irrefl {s : String} (h : strLex s s) : False := strLex_asymm h h

theorem strLex_trans {s t u : String} (h1 : strLex s t) (h2 : strLex t u) :
    strLex s u := by
  unfold strLex at h1 h2 ⊢
  exact IsTrans.trans _ _ _ h1 h2

theorem strLex_total (s t : String) : strLex s t ∨ s = t ∨ strLex t s := by
  rcases @IsTrichotomous.trichotomous (List Char) (List.Lex (· < ·)) inferInstance
    s.toList t.toList with h | h | h
  · exact Or.inl h
  · exact Or.inr (Or.inl (toList_inj h))
  · exact Or.inr (Or.inr h)

instance : IsTotal (String × String) pairLe := by
  constructor
  intro a b
  rcases strLex_total a.1 b.1 with h | h | h
  · exact Or.inl (Or.inl h)
  · rcases strLex_total a.2 b.2 with h2 | h2 | h2
    · exact Or.inl (Or.inr ⟨h, Or.inl h2⟩)
    · exact Or.inl (Or.inr ⟨h, Or.inr h2⟩)
    · exact Or.inr (Or.inr ⟨h.symm, Or.inl h2⟩)
  · exact Or.inr (Or.inl h)

instance : IsTrans (String × String) pairLe := by
  constructor
  intro a b c hab hbc
  rcases hab with h1 | ⟨h1, h1v⟩
  · rcases hbc with h2 | ⟨h2, _⟩
    · exact Or.inl (strLex_trans h1 h2)
    · exact Or.inl (h2 ▸ h1)
  · rcases hbc with h2 | ⟨h2, h2v⟩
    · exact Or.inl (h1 ▸ h2)
    · refine Or.inr ⟨h1.trans h2, ?_⟩
      rcases h1v with hv | hv
      · rcases h2v with hw | hw
        · exact Or.inl (strLex_trans hv hw)
        · exact Or.inl (hw ▸ hv)
      · rcases h2v with hw | hw
        · exact Or.inl (hv ▸ hw)
        · exact Or.inr (hv.trans hw)

instance : IsAntisymm (String × String) pairLe := by
  constructor
  intro a b hab hba
  rcases hab with h1 | ⟨h1, h1v⟩
  · rcases hba with h2 | ⟨h2, _⟩
    · exact absurd h2 (fun h => strLex_asymm h1 h)
    · exact absurd h1 (fun h => strLex_irrefl (h2 ▸ h))
  · rcases hba with h2 | ⟨h2, h2v⟩
    · exact absurd h2 (fun h => strLex_irrefl (h1 ▸ h))
    · cases a; cases b
      simp only at h1 h1v h2v
      subst h1
      rcases h1v with hv | hv
      · rcases h2v with hw | hw
        · exact absurd hw (fun h => strLex_asymm hv h)
        · exact absurd hv (fun h => strLex_irrefl (hw ▸ h))
      · exact congrArg _ hv

/-- The payload that `QubesBase.add_pool` (`app.py` 157-171) sends with the
`mgmt.pool.Add` call: `'name={}\n'.format(name)` followed by one
`'{}={}\n'` line per configuration option, in `sorted(kwargs.items())`
order. -/
def add_pool_payload (name : String) (kwargs : List (String × String)) : String :=
  "name=" ++ name ++ "\n" ++
    String.join ((List.insertionSort pairLe kwargs).map
      (fun kv => kv.1 ++ "=" ++ kv.2 ++ "\n"))

end QubesBase

/-! ### Dictionary lemmas -/

theorem dictGet_erase {α : Type} (d : List (String × α)) (k n : String) :
    dictGet (dictErase d k) n = if n = k then none else dictGet d n := by
  induction d with
  | nil => simp [dictErase, dictGet]
  | cons e rest ih =>
    obtain ⟨k0, v0⟩ := e
    by_cases h1 : k0 = k
    · simp only [dictErase, if_pos h1, ih]
      by_cases h2 : n = k
      · rw [if_pos h2, if_pos h2]
      · rw [if_neg h2, if_neg h2]
        have h3 : ¬ k0 = n := fun hh => h2 (hh ▸ h1)
        simp [dictGet, h3]
    · simp only [dictErase, if_neg h1, dictGet]
      by_cases h2 : k0 = n
      · subst h2
        have h3 : ¬ k0 = k := h1
        simp [h3]
      · simp [h2, ih]

theorem dictGet_insert {α : Type} (d : List (String × α)) (k n : String) (v : α) :
    dictGet (dictInsert d k v) n = if n = k then some v else dictGet d n := by
  induction d with
  | nil =>
    by_cases h2 : n = k
    · subst h2; simp [dictInsert, dictGet]
    · have h3 : ¬ k = n := fun hh => h2 hh.symm
      simp [dictInsert, dictGet, h2, h3]
  | cons e rest ih =>
    obtain ⟨k0, v0⟩ := e
    by_cases h1 : k0 = k
    · subst h1
      by_cases h2 : n = k0
      · subst h2; simp [dictInsert, dictGet]
      · have h3 : ¬ k0 = n := fun hh => h2 hh.symm
        simp [dictInsert, dictGet, h2, h3]
    · simp only [dictInsert, if_neg h1, dictGet]
      by_cases h2 : k0 = n
      · subst h2
        have h3 : ¬ k0 = k := h1
        simp [h3]
      · simp [h2, ih]

theorem dictErase_sublist {α : Type} (d : List (String × α)) (k : String) :
    (dictErase d k).Sublist d := by
  induction d with
  | nil => simp [dictErase]
  | cons e rest ih =>
    obtain ⟨k0, v0⟩ := e
    by_cases h1 : k0 = k
    · simp only [dictErase, if_pos h1]
      exact ih.cons (k0, v0)
    · simp only [dictErase, if_neg h1]
      exact ih.cons₂ (k0, v0)

theorem dictInsert_of_get_none {α : Type} {d : List (String × α)} {k : String}
    (v : α) (h : dictGet d k = none) : dictInsert d k v = d ++ [(k, v)] := by
  induction d with
  | nil => simp [dictInsert]
  | cons e rest ih =>
    obtain ⟨k0, v0⟩ := e
    by_cases h1 : k0 = k
    · simp [dictGet, h1] at h
    · simp only [dictGet, if_neg h1] at h
      simp [dictInsert, h1, ih h]

theorem dictGet_mem {α : Type} {d : List (String × α)} {k : String} {v : α}
    (h : dictGet d k = some v) : (k, v) ∈ d := by
  induction d with
  | nil => simp [dictGet] at h
  | cons e rest ih =>
    obtain ⟨k0, v0⟩ := e
    by_cases h1 : k0 = k
    · subst h1
      simp [dictGet] at h
      simp [h]
    · simp only [dictGet, if_neg h1] at h
      exact List.mem_cons_of_mem _ (ih h)

theorem mem_dictGet {α : Type} {d : List (String × α)} {k : String} {v : α}
    (hnd : (d.map Prod.fst).Nodup) (h : (k, v) ∈ d) : dictGet d k = some v := by
  induction d with
  | nil => simp at h
  | cons e rest ih =>
    obtain ⟨k0, v0⟩ := e
    simp only [List.map_cons, List.nodup_cons] at hnd
    rcases List.mem_cons.mp h with h | h
    · rw [Prod.mk.injEq] at h
      obtain ⟨hk, hv⟩ := h
      subst hk; subst hv
      simp [dictGet]
    · have hk0 : ¬ k0 = k := fun hh => by
        apply hnd.1
        rw [hh]
        exact List.mem_map.mpr ⟨(k, v), h, rfl⟩
      simp only [dictGet, if_neg hk0]
      exact ih hnd.2 h

theorem dictGet_none_iff {α : Type} {d : List (String × α)} {k : String} :
    dictGet d k = none ↔ k ∉ d.map Prod.fst := by
  induction d with
  | nil => simp [dictGet]
  | cons e rest ih =>
    obtain ⟨k0, v0⟩ := e
    by_cases h1 : k0 = k
    · subst h1
      simp [dictGet]
    · simp only [dictGet, if_neg h1, List.map_cons, List.mem_cons, not_or]
      rw [ih]
      exact ⟨fun hh => ⟨fun hc => h1 hc.symm, hh⟩, fun hh => hh.2⟩

theorem dictGet_append_left {α : Type} {d1 : List (String × α)} {k : String} {v : α}
    (d2 : List (String × α)) (h : dictGet d1 k = some v) :
    dictGet (d1 ++ d2) k = some v := by
  induction d1 with
  | nil => simp [dictGet] at h
  | cons e rest ih =>
    obtain ⟨k0, v0⟩ := e
    by_cases h1 : k0 = k
    · simp [dictGet, h1] at h ⊢
      exact h
    · simp only [dictGet, if_neg h1] at h
      simpa [dictGet, h1] using ih h

theorem dictGet_append_right {α : Type} {d1 : List (String × α)} {k : String}
    (d2 : List (String × α)) (h : dictGet d1 k = none) :
    dictGet (d1 ++ d2) k = dictGet d2 k := by
  induction d1 with
  | nil => simp [dictGet]
  | cons e rest ih =>
    obtain ⟨k0, v0⟩ := e
    by_cases h1 : k0 = k
    · simp [dictGet, h1] at h
    · simp only [dictGet, if_neg h1] at h
      simpa [dictGet, h1] using ih h

/-! ### mapOpt lemmas -/

theorem mapOpt_eq_none_of_mem {α β : Type} {f : α → Option β} {l : List α} {a : α}
    (ha : a ∈ l) (hf : f a = none) : mapOpt f l = none := by
  induction l with
  | nil => simp at ha
  | cons b rest ih =>
    rcases List.mem_cons.mp ha with h | h
    · subst h
      simp [mapOpt, hf]
    · cases hb : f b
      · simp [mapOpt, hb]
      · simp [mapOpt, hb, ih h]

/-! ### Snapshot construction lemmas -/

theorem buildSnapAux_get_of_not_key (entries : List (String × Props)) (acc : Snap)
    (k : String) (h : ∀ e ∈ entries, e.1 ≠ k) :
    dictGet (buildSnapAux entries acc) k = dictGet acc k := by
  induction entries generalizing acc with
  | nil => rfl
  | cons e rest ih =>
    simp only [buildSnapAux]
    rw [ih _ (fun x hx => h x (List.mem_cons_of_mem _ hx)), dictGet_insert,
      if_neg (fun hh => h e (List.mem_cons_self _ _) hh.symm)]

theorem buildSnapAux_keys (entries : List (String × Props)) (acc : Snap)
    (hacc : ∀ e ∈ entries, dictGet acc e.1 = none)
    (hnd : (entries.map Prod.fst).Nodup) :
    (buildSnapAux entries acc).map Prod.fst =
      acc.map Prod.fst ++ entries.map Prod.fst := by
  induction entries generalizing acc with
  | nil => simp [buildSnapAux]
  | cons e rest ih =>
    simp only [List.map_cons, List.nodup_cons] at hnd
    simp only [buildSnapAux]
    rw [dictInsert_of_get_none e.2 (hacc e (List.mem_cons_self _ _)), ih]
    · simp
    · intro x hx
      rw [dictGet_append_right _ (hacc x (List.mem_cons_of_mem _ hx))]
      have hne : ¬ e.1 = x.1 := fun hh => hnd.1 (by
        rw [hh]
        exact List.mem_map.mpr ⟨x, hx, rfl⟩)
      simp [dictGet, hne]
    · exact hnd.2

theorem buildSnapAux_get_mem (entries : List (String × Props)) (acc : Snap)
    (hacc : ∀ e ∈ entries, dictGet acc e.1 = none)
    (hnd : (entries.map Prod.fst).Nodup) :
    ∀ e0 ∈ entries, dictGet (buildSnapAux entries acc) e0.1 = some e0.2 := by
  induction entries generalizing acc with
  | nil => intro e0 h0; simp at h0
  | cons e rest ih =>
    intro e0 h0
    simp only [List.map_cons, List.nodup_cons] at hnd
    simp only [buildSnapAux]
    rcases List.mem_cons.mp h0 with h0 | h0
    · subst h0
      rw [buildSnapAux_get_of_not_key]
      · rw [dictGet_insert, if_pos rfl]
      · intro x hx hh
        exact hnd.1 (by rw [← hh]; exact List.mem_map.mpr ⟨x, hx, rfl⟩)
    · apply ih
      · intro x hx
        rw [dictGet_insert]
        have hne : ¬ x.1 = e.1 := fun hh => hnd.1 (by
          rw [hh.symm]
          exact List.mem_map.mpr ⟨x, hx, rfl⟩)
        rw [if_neg hne]
        exact hacc x (List.mem_cons_of_mem _ hx)
      · exact hnd.2
      · exact h0

theorem buildSnap_keys (entries : List (String × Props))
    (hnd : (entries.map Prod.fst).Nodup) :
    (buildSnap entries).map Prod.fst = entries.map Prod.fst := by
  unfold buildSnap
  rw [buildSnapAux_keys entries [] (fun e _ => rfl) hnd]
  rfl

theorem buildSnap_get_mem (entries : List (String × Props))
    (hnd : (entries.map Prod.fst).Nodup) :
    ∀ e0 ∈ entries, dictGet (buildSnap entries) e0.1 = some e0.2 :=
  buildSnapAux_get_mem entries [] (fun _ _ => rfl) hnd

/-! ### Reconciliation lemmas -/

/-- The condition under which the reconciliation loop keeps a wrapper
instance: its live name is listed in the new snapshot and its class
discriminator agrees with the listed class property. -/
def keepCond (vl : Snap) (vm : VMObj) : Prop :=
  ∃ props, dictGet vl vm.name = some props ∧ dictGet props "class" = some vm.cls

theorem reconcileStep_cases {vl : Snap} {objs objs2 : ObjTable} {e : String × VMObj}
    (h : VMCollection.reconcileStep vl objs e = .ok objs2) :
    (objs2 = dictErase objs e.1 ∧ ¬ keepCond vl e.2)
    ∨ (objs2 = dictErase (dictInsert objs e.2.name e.2) e.1 ∧ e.1 ≠ e.2.name ∧
        keepCond vl e.2)
    ∨ (objs2 = objs ∧ e.1 = e.2.name ∧ keepCond vl e.2) := by
  unfold VMCollection.reconcileStep at h
  split at h
  · rename_i hv
    injection h with h
    refine Or.inl ⟨h.symm, ?_⟩
    rintro ⟨props, hp, _⟩
    rw [hv] at hp
    exact Option.noConfusion hp
  · rename_i props hv
    split at h
    · exact Except.noConfusion h
    · rename_i c hc
      split at h
      · rename_i hcls
        injection h with h
        refine Or.inl ⟨h.symm, ?_⟩
        rintro ⟨props2, hp2, hc2⟩
        rw [hv] at hp2
        injection hp2 with hp2
        subst hp2
        rw [hc] at hc2
        injection hc2 with hc2
        exact hcls hc2.symm
      · rename_i hcls
        have hceq : e.2.cls = c := not_ne_iff.mp hcls
        have hk : keepCond vl e.2 := ⟨props, hv, by rw [hceq]; exact hc⟩
        split at h
        · rename_i hrk
          injection h with h
          exact Or.inr (Or.inl ⟨h.symm, hrk, hk⟩)
        · rename_i hrk
          injection h with h
          exact Or.inr (Or.inr ⟨h.symm, not_ne_iff.mp hrk, hk⟩)

theorem reconcileAux_cons {vl : Snap} {e : String × VMObj}
    {rest : List (String × VMObj)} {objs objs2 : ObjTable}
    (h : VMCollection.reconcileAux vl (e :: rest) objs = .ok objs2) :
    ∃ mid, VMCollection.reconcileStep vl objs e = .ok mid ∧
      VMCollection.reconcileAux vl rest mid = .ok objs2 := by
  unfold VMCollection.reconcileAux at h
  split at h
  · exact Except.noConfusion h
  · rename_i mid hs
    exact ⟨mid, hs, h⟩

theorem reconcileAux_nil {vl : Snap} {objs objs2 : ObjTable}
    (h : VMCollection.reconcileAux vl [] objs = .ok objs2) : objs2 = objs := by
  injection h with h
  exact h.symm

theorem reconcileAux_pres {vl : Snap} {n : String} :
    ∀ {L : List (String × VMObj)} {objs objs2 : ObjTable},
      (∀ e ∈ L, e.1 ≠ n ∧ e.2.name ≠ n) →
      VMCollection.reconcileAux vl L objs = .ok objs2 →
      dictGet objs2 n = dictGet objs n := by
  intro L
  induction L with
  | nil =>
    intro objs objs2 _ h
    rw [reconcileAux_nil h]
  | cons e rest ih =>
    intro objs objs2 hall h
    obtain ⟨mid, hs, hrest⟩ := reconcileAux_cons h
    have he := hall e (List.mem_cons_self _ _)
    have hmid : dictGet mid n = dictGet objs n := by
      rcases reconcileStep_cases hs with ⟨rfl, _⟩ | ⟨rfl, _, _⟩ | ⟨rfl, _, _⟩
      · rw [dictGet_erase, if_neg (fun hh => he.1 hh.symm)]
      · rw [dictGet_erase, if_neg (fun hh => he.1 hh.symm), dictGet_insert,
          if_neg (fun hh => he.2 hh.symm)]
      · rfl
    rw [ih (fun x hx => hall x (List.mem_cons_of_mem _ hx)) hrest, hmid]

theorem reconcileAux_sublist {vl : Snap} :
    ∀ {L : List (String × VMObj)} {objs objs2 : ObjTable},
      (∀ e ∈ L, e.2.name = e.1) →
      VMCollection.reconcileAux vl L objs = .ok objs2 → objs2.Sublist objs := by
  intro L
  induction L with
  | nil =>
    intro objs objs2 _ h
    rw [reconcileAux_nil h]
  | cons e rest ih =>
    intro objs objs2 hall h
    obtain ⟨mid, hs, hrest⟩ := reconcileAux_cons h
    have hcan := hall e (List.mem_cons_self _ _)
    have hsub : mid.Sublist objs := by
      rcases reconcileStep_cases hs with ⟨rfl, _⟩ | ⟨rfl, hrk, _⟩ | ⟨rfl, _, _⟩
      · exact dictErase_sublist _ _
      · exact absurd hcan.symm hrk
      · exact List.Sublist.refl _
    exact (ih (fun x hx => hall x (List.mem_cons_of_mem _ hx)) hrest).trans hsub

theorem reconcileAux_pres_keep {vl : Snap} {n : String} :
    ∀ {L : List (String × VMObj)} {objs objs2 : ObjTable},
      (∀ e ∈ L, e.2.name = e.1) → (L.map Prod.fst).Nodup →
      (∀ vm0, (n, vm0) ∈ L → keepCond vl vm0) →
      VMCollection.reconcileAux vl L objs = .ok objs2 →
      dictGet objs2 n = dictGet objs n := by
  intro L
  induction L with
  | nil =>
    intro objs objs2 _ _ _ h
    rw [reconcileAux_nil h]
  | cons e rest ih =>
    intro objs objs2 hcan hnd hkeep h
    obtain ⟨mid, hs, hrest⟩ := reconcileAux_cons h
    simp only [List.map_cons, List.nodup_cons] at hnd
    have hecan := hcan e (List.mem_cons_self _ _)
    by_cases hen : e.1 = n
    · have hk : keepCond vl e.2 :=
        hkeep e.2 (List.mem_cons.mpr (Or.inl (by rw [← hen, Prod.mk.eta])))
      rcases reconcileStep_cases hs with ⟨rfl, hnk⟩ | ⟨rfl, hrk, _⟩ | ⟨rfl, _, _⟩
      · exact absurd hk hnk
      · exact absurd hecan.symm hrk
      · have hpres : ∀ x ∈ rest, x.1 ≠ n ∧ x.2.name ≠ n := by
          intro x hx
          have hx1 : x.1 ≠ n := fun hh => hnd.1 (by
            rw [hen]
            exact hh ▸ List.mem_map.mpr ⟨x, hx, rfl⟩)
          exact ⟨hx1, fun hh => hx1 (by
            rw [← hcan x (List.mem_cons_of_mem _ hx)]
            exact hh)⟩
        exact reconcileAux_pres hpres hrest
    · have hname : e.2.name ≠ n := fun hh => hen (by rw [← hecan]; exact hh)
      have hmid : dictGet mid n = dictGet objs n := by
        rcases reconcileStep_cases hs with ⟨rfl, _⟩ | ⟨rfl, _, _⟩ | ⟨rfl, _, _⟩
        · rw [dictGet_erase, if_neg (fun hh => hen hh.symm)]
        · rw [dictGet_erase, if_neg (fun hh => hen hh.symm), dictGet_insert,
            if_neg (fun hh => hname hh.symm)]
        · rfl
      rw [ih (fun x hx => hcan x (List.mem_cons_of_mem _ hx)) hnd.2
        (fun vm0 hvm => hkeep vm0 (List.mem_cons_of_mem _ hvm)) hrest, hmid]

theorem reconcileAux_erased {vl : Snap} {n : String} {vm : VMObj} :
    ∀ {L : List (String × VMObj)} {objs objs2 : ObjTable},
      (∀ e ∈ L, e.2.name = e.1) → (L.map Prod.fst).Nodup →
      (n, vm) ∈ L → ¬ keepCond vl vm →
      VMCollection.reconcileAux vl L objs = .ok objs2 →
      dictGet objs2 n = none := by
  intro L
  induction L with
  | nil =>
    intro objs objs2 _ _ hmem _ _
    simp at hmem
  | cons e rest ih =>
    intro objs objs2 hcan hnd hmem hnk h
    obtain ⟨mid, hs, hrest⟩ := reconcileAux_cons h
    simp only [List.map_cons, List.nodup_cons] at hnd
    have hecan := hcan e (List.mem_cons_self _ _)
    rcases List.mem_cons.mp hmem with hmem | hmem
    · have he1 : e.1 = n := by rw [← hmem]
      have he2 : e.2 = vm := by rw [← hmem]
      rcases reconcileStep_cases hs with ⟨rfl, _⟩ | ⟨rfl, hrk, _⟩ | ⟨rfl, _, hk⟩
      · have hpres : ∀ x ∈ rest, x.1 ≠ n ∧ x.2.name ≠ n := by
          intro x hx
          have hx1 : x.1 ≠ n := fun hh => hnd.1 (by
            rw [he1]
            exact hh ▸ List.mem_map.mpr ⟨x, hx, rfl⟩)
          exact ⟨hx1, fun hh => hx1 (by
            rw [← hcan x (List.mem_cons_of_mem _ hx)]
            exact hh)⟩
        rw [reconcileAux_pres hpres hrest, dictGet_erase, if_pos he1.symm]
      · exact absurd hecan.symm hrk
      · rw [he2] at hk
        exact absurd hk hnk
    · exact ih (fun x hx => hcan x (List.mem_cons_of_mem _ hx)) hnd.2 hmem hnk hrest

theorem reconcileAux_survival {vl : Snap} {n : String} :
    ∀ {L : List (String × VMObj)} {objs objs2 : ObjTable} {vm : VMObj},
      (∀ e ∈ L, e.2.name = e.1) → (L.map Prod.fst).Nodup →
      VMCollection.reconcileAux vl L objs = .ok objs2 →
      dictGet objs2 n = some vm →
      dictGet objs n = some vm ∧ ∀ vm0, (n, vm0) ∈ L → keepCond vl vm0 := by
  intro L
  induction L with
  | nil =>
    intro objs objs2 vm _ _ h hget
    rw [reconcileAux_nil h] at hget
    exact ⟨hget, fun vm0 hvm => by simp at hvm⟩
  | cons e rest ih =>
    intro objs objs2 vm hcan hnd h hget
    obtain ⟨mid, hs, hrest⟩ := reconcileAux_cons h
    simp only [List.map_cons, List.nodup_cons] at hnd
    have hecan := hcan e (List.mem_cons_self _ _)
    obtain ⟨hmid, hkrest⟩ :=
      ih (fun x hx => hcan x (List.mem_cons_of_mem _ hx)) hnd.2 hrest hget
    by_cases hen : e.1 = n
    · rcases reconcileStep_cases hs with ⟨rfl, hnk⟩ | ⟨rfl, hrk, _⟩ | ⟨rfl, _, hk⟩
      · rw [dictGet_erase, if_pos hen.symm] at hmid
        exact Option.noConfusion hmid
      · exact absurd hecan.symm hrk
      · refine ⟨hmid, fun vm0 hvm => ?_⟩
        rcases List.mem_cons.mp hvm with hvm | hvm
        · have he2 : e.2 = vm0 := by rw [← hvm]
          rw [← he2]
          exact hk
        · exact absurd (by
            rw [hen]
            exact List.mem_map.mpr ⟨(n, vm0), hvm, rfl⟩) hnd.1
    · have hname : e.2.name ≠ n := fun hh => hen (by rw [← hecan]; exact hh)
      have hstep : dictGet mid n = dictGet objs n := by
        rcases reconcileStep_cases hs with ⟨rfl, _⟩ | ⟨rfl, _, _⟩ | ⟨rfl, _, _⟩
        · rw [dictGet_erase, if_neg (fun hh => hen hh.symm)]
        · rw [dictGet_erase, if_neg (fun hh => hen hh.symm), dictGet_insert,
            if_neg (fun hh => hname hh.symm)]
        · rfl
      refine ⟨by rw [← hstep]; exact hmid, fun vm0 hvm => ?_⟩
      rcases List.mem_cons.mp hvm with hvm | hvm
      · exact absurd (congrArg Prod.fst hvm).symm hen
      · exact hkrest vm0 hvm

/-! ### refresh_cache and getItem inversion lemmas -/

theorem refresh_cache_cached {p : String} {st : CollState} (h : st.vm_list ≠ none) :
    VMCollection.refresh_cache p false st = .ok (st, 0) := by
  unfold VMCollection.refresh_cache
  rw [if_pos ⟨rfl, h⟩]

theorem refresh_cache_ok_inv {p : String} {force : Bool} {st st1 : CollState}
    {num : Nat} (hcond : force = true ∨ st.vm_list = none)
    (h : VMCollection.refresh_cache p force st = .ok (st1, num)) :
    ∃ entries, parseVMListing p = some entries ∧
      st1.vm_list = some (buildSnap entries) ∧
      VMCollection.reconcileAux (buildSnap entries) st.vm_objects st.vm_objects =
        .ok st1.vm_objects ∧
      st1.fresh = st.fresh ∧ num = 1 := by
  unfold VMCollection.refresh_cache at h
  have hneg : ¬ (force = false ∧ st.vm_list ≠ none) := by
    rcases hcond with hc | hc
    · rintro ⟨h1, _⟩
      rw [hc] at h1
      exact Bool.noConfusion h1
    · rintro ⟨_, h2⟩
      exact h2 hc
  rw [if_neg hneg] at h
  split at h
  · exact Except.noConfusion h
  · rename_i entries hp
    split at h
    · exact Except.noConfusion h
    · rename_i objs hrec
      injection h with h
      rw [Prod.mk.injEq] at h
      obtain ⟨hst, hnum⟩ := h
      refine ⟨entries, hp, ?_, ?_, ?_, hnum.symm⟩
      · rw [← hst]
      · rw [← hst]
        exact hrec
      · rw [← hst]

theorem keys_cached {p : String} {st : CollState} {snap : Snap}
    (h : st.vm_list = some snap) :
    VMCollection.keys p st = .ok (snap.map Prod.fst, st, 0) := by
  unfold VMCollection.keys
  rw [refresh_cache_cached (by rw [h]; exact fun hh => Option.noConfusion hh)]
  simp [h]

theorem reconcileAux_append_inv {vl : Snap} :
    ∀ {L1 L2 : List (String × VMObj)} {objs objs2 : ObjTable},
      VMCollection.reconcileAux vl (L1 ++ L2) objs = .ok objs2 →
      ∃ mid, VMCollection.reconcileAux vl L1 objs = .ok mid ∧
        VMCollection.reconcileAux vl L2 mid = .ok objs2 := by
  intro L1
  induction L1 with
  | nil =>
    intro L2 objs objs2 h
    exact ⟨objs, rfl, h⟩
  | cons e rest ih =>
    intro L2 objs objs2 h
    rw [List.cons_append] at h
    obtain ⟨m1, hs, hrest⟩ := reconcileAux_cons h
    obtain ⟨mid, ha, hb⟩ := ih hrest
    refine ⟨mid, ?_, hb⟩
    unfold VMCollection.reconcileAux
    rw [hs]
    exact ha

theorem getItem_cached_existing {q item : String} {st : CollState} {snap : Snap}
    {props : Props} {vm : VMObj}
    (hl : st.vm_list = some snap) (hp : dictGet snap item = some props)
    (ho : dictGet st.vm_objects item = some vm) :
    VMCollection.getItem q item st = .ok (vm, st) := by
  unfold VMCollection.getItem
  rw [refresh_cache_cached (by rw [hl]; exact fun hh => Option.noConfusion hh)]
  simp only [hl, Option.getD_some, hp, ho]

theorem getItem_cached_fresh {q item : String} {st : CollState} {snap : Snap}
    {props : Props} {c : String}
    (hl : st.vm_list = some snap) (hp : dictGet snap item = some props)
    (ho : dictGet st.vm_objects item = none)
    (hc : dictGet props "class" = some c) :
    VMCollection.getItem q item st =
      .ok (⟨st.fresh, item, c⟩,
        { st with
          vm_objects := dictInsert st.vm_objects item ⟨st.fresh, item, c⟩
          fresh := st.fresh + 1 }) := by
  unfold VMCollection.getItem
  rw [refresh_cache_cached (by rw [hl]; exact fun hh => Option.noConfusion hh)]
  simp only [hl, Option.getD_some, hp, ho, hc]

/-- A listing line that violates the `name<space>key=value<space>...` shape:
it has no space at all, or some whitespace-delimited property token carries
no `=`. -/
def violatesShapeB (line : String) : Bool :=
  match splitFirst ' ' line with
  | none => true
  | some nr => (splitAll ' ' nr.2).any (fun tok => (splitFirst '=' tok).isNone)

theorem parseVMLine_eq_none_of_violates {line : String}
    (h : violatesShapeB line = true) : parseVMLine line = none := by
  unfold violatesShapeB at h
  unfold parseVMLine
  cases hs : splitFirst ' ' line with
  | none => rfl
  | some nr =>
    obtain ⟨nm, pr⟩ := nr
    rw [hs] at h
    simp only [List.any_eq_true] at h
    obtain ⟨tok, htok, hnone⟩ := h
    rw [Option.isNone_iff_eq_none] at hnone
    simp [mapOpt_eq_none_of_mem htok hnone]

/-! ### Claim theorems -/

/-- Claim C1, counterexample: the claim states that no empty null-terminated
token is emitted for a `None` argument, but for a call with `arg = None` the
local transport's frame differs from the spec-worded frame precisely by a
trailing empty null-terminated token: the written bytes end in two
consecutive null bytes. -/
theorem C1_counterexample :
    QubesLocal.qubesd_call_bytes "dom0" "mgmt.vm.List" none none ≠
      QubesLocal.qubesd_call_bytes_spec "dom0" "mgmt.vm.List" none none ∧
    QubesLocal.qubesd_call_bytes "dom0" "mgmt.vm.List" none none =
      asciiBytes "dom0" ++ [0] ++ asciiBytes "mgmt.vm.List" ++ [0] ++
        asciiBytes "dom0" ++ [0, 0] := by
  exact ⟨by decide, by decide⟩

/-- Claim C1 (amended): the local transport writes the fields in the fixed
order source `'dom0'`, method, destination, argument; the content of a
`None` field is skipped but its single null terminator is always written
(so a `None` argument yields an empty null-terminated token), and the
payload, if present, is appended raw after the framing. -/
theorem C1_frame_layout (dest method : String) (arg : Option String)
    (payload : Option (List Nat)) :
    QubesLocal.qubesd_call_bytes dest method arg payload =
      asciiBytes "dom0" ++ 0 :: (asciiBytes method ++ 0 :: (asciiBytes dest ++ 0 ::
        ((arg.map asciiBytes).getD [] ++ 0 :: payload.getD []))) := by
  cases arg <;> cases payload <;>
    simp [QubesLocal.qubesd_call_bytes, QubesLocal.frameFields]

/-- Claim C2, counterexample: at the spec's own scenario (helper exits 1
with stderr `no such domain`) the remote transport raises
`qubesmgmt.exc.QubesException`, not an exception named `ConnectionError`,
and the diagnostic text is passed alongside the format string
`'Service call error: %s'`. -/
theorem C2_counterexample :
    QubesRemote.qubesd_call_result ⟨1, "", "no such domain"⟩ =
      .error ⟨ "QubesException", ["Service call error: %s", "no such domain"]⟩ ∧
    ("QubesException" : String) ≠ "ConnectionError" := by
  exact ⟨by decide, by decide⟩

/-- Claim C2 (amended): whenever the helper subprocess exits non-zero, the
remote transport raises `qubesmgmt.exc.QubesException` (the generic base
exception; the code carries a TODO to use a dedicated one) whose arguments
are the format string `'Service call error: %s'` together with the decoded
stderr text, verbatim. -/
theorem C2_remote_error (r : SubprocResult) (h : r.returncode ≠ 0) :
    QubesRemote.qubesd_call_result r =
      .error ⟨ "QubesException", ["Service call error: %s", r.stderr]⟩ := by
  unfold QubesRemote.qubesd_call_result
  rw [if_pos h]

theorem C2_remote_error_witness :
    ((1 : Int) ≠ 0) ∧
    QubesRemote.qubesd_call_result ⟨1, "out", "disk full"⟩ =
      .error ⟨ "QubesException", ["Service call error: %s", "disk full"]⟩ :=
  ⟨by decide, C2_remote_error ⟨1, "out", "disk full"⟩ (by decide)⟩

/-- Claim C4: from an uncached state, a non-forced `refresh_cache` issues
exactly one dispatcher call, and a second non-forced `refresh_cache` (with
any payload the dispatcher might have returned) is a no-op that issues no
dispatcher call and leaves the state unchanged. -/
theorem C4_refresh_idempotent (p q : String) (st st1 : CollState) (num : Nat)
    (h0 : st.vm_list = none)
    (h1 : VMCollection.refresh_cache p false st = .ok (st1, num)) :
    num = 1 ∧ VMCollection.refresh_cache q false st1 = .ok (st1, 0) := by
  obtain ⟨entries, hp, hlist, hrec, hfresh, hnum⟩ :=
    refresh_cache_ok_inv (Or.inr h0) h1
  exact ⟨hnum,
    refresh_cache_cached (by rw [hlist]; exact fun hh => Option.noConfusion hh)⟩

theorem C4_refresh_idempotent_witness :
    VMCollection.refresh_cache "vm1 class=QubesVM\n" false ⟨none, [], 0⟩ =
      .ok (⟨some [("vm1", [("class", "QubesVM")])], [], 0⟩, 1) ∧
    (1 = 1 ∧
      VMCollection.refresh_cache "" false
          ⟨some [("vm1", [("class", "QubesVM")])], [], 0⟩ =
        .ok (⟨some [("vm1", [("class", "QubesVM")])], [], 0⟩, 0)) :=
  ⟨by decide,
   C4_refresh_idempotent "vm1 class=QubesVM\n" "" ⟨none, [], 0⟩
     ⟨some [("vm1", [("class", "QubesVM")])], [], 0⟩ 1 (by decide) (by decide)⟩

/-- Claim C7, counterexample: a listing line with a missing `class` field
does not make `refresh_cache` fail at all — the payload `vm1 prop=1\n`
refreshes successfully into a snapshot whose entry has no class property;
the missing class only surfaces later, as a `KeyError` (not a
`ProtocolError`), when the name is instantiated. -/
theorem C7_counterexample :
    VMCollection.refresh_cache "vm1 prop=1\n" true ⟨none, [], 0⟩ =
      .ok (⟨some [("vm1", [("prop", "1")])], [], 0⟩, 1) ∧
    VMCollection.getItem "" "vm1" ⟨some [("vm1", [("prop", "1")])], [], 0⟩ =
      .error (.keyError "class") := by
  exact ⟨by decide, by decide⟩

/-- Claim C7 (amended): a listing line violating the
`name<space>key=value...` shape (no space, or a property token without `=`)
makes `refresh_cache` fail with `ValueError` (not `ProtocolError`); the
line is never silently skipped and the failure is never masked as an empty
collection.  A line missing only the `class` property is not a parse
failure: it surfaces later as `KeyError`. -/
theorem C7_malformed_line (p : String) (st : CollState) (line : String)
    (hline : line ∈ splitlinesPy p) (hbad : violatesShapeB line = true) :
    VMCollection.refresh_cache p true st = .error .valueError := by
  have hparse : parseVMListing p = none :=
    mapOpt_eq_none_of_mem hline (parseVMLine_eq_none_of_violates hbad)
  unfold VMCollection.refresh_cache
  rw [if_neg (by rintro ⟨h1, _⟩; exact Bool.noConfusion h1)]
  rw [hparse]

theorem C7_malformed_line_witness :
    ("vm1" ∈ splitlinesPy "vm1\n") ∧ violatesShapeB "vm1" = true ∧
    VMCollection.refresh_cache "vm1\n" true ⟨none, [], 0⟩ = .error .valueError :=
  ⟨by decide, by decide,
   C7_malformed_line "vm1\n" ⟨none, [], 0⟩ "vm1" (by decide) (by decide)⟩

/-- Claim C8: the pool-creation payload is `name=<name>\n` followed by one
`<key>=<value>\n` line per option with keys sorted, so it is invariant
under reordering of the supplied options, and the spec's example options
`{b: "2", a: "1"}` produce exactly `name=<n>\na=1\nb=2\n`. -/
theorem C8_add_pool_payload (name : String) (l1 l2 : List (String × String))
    (hperm : l1.Perm l2) :
    QubesBase.add_pool_payload name l1 = QubesBase.add_pool_payload name l2 ∧
    QubesBase.add_pool_payload name [("b", "2"), ("a", "1")] =
      "name=" ++ name ++ "\n" ++ "a=1\nb=2\n" := by
  constructor
  · have hsorted : List.insertionSort QubesBase.pairLe l1 =
        List.insertionSort QubesBase.pairLe l2 := by
      refine List.eq_of_perm_of_sorted ?_ (List.sorted_insertionSort _ _)
        (List.sorted_insertionSort _ _)
      exact (List.perm_insertionSort _ l1).trans
        (hperm.trans (List.perm_insertionSort _ l2).symm)
    unfold QubesBase.add_pool_payload
    rw [hsorted]
  · unfold QubesBase.add_pool_payload
    rw [show List.insertionSort QubesBase.pairLe [("b", "2"), ("a", "1")] =
      [("a", "1"), ("b", "2")] from by decide]
    rw [show String.join ([("a", "1"), ("b", "2")].map
      (fun kv => kv.1 ++ "=" ++ kv.2 ++ "\n")) = "a=1\nb=2\n" from by decide]

theorem C8_add_pool_payload_witness :
    ([(("b" : String), ("2" : String)), ("a", "1")].Perm
      [("a", "1"), ("b", "2")]) ∧
    (QubesBase.add_pool_payload "p" [("b", "2"), ("a", "1")] =
        QubesBase.add_pool_payload "p" [("a", "1"), ("b", "2")] ∧
      QubesBase.add_pool_payload "p" [("b", "2"), ("a", "1")] =
        "name=" ++ "p" ++ "\n" ++ "a=1\nb=2\n") :=
  ⟨by decide,
   C8_add_pool_payload "p" [("b", "2"), ("a", "1")] [("a", "1"), ("b", "2")]
     (by decide)⟩

/-- Claim C9, counterexample: an empty-but-line-terminated payload (`\n`) is
not parsed as an empty collection by the VM listing — `refresh_cache`
raises `ValueError` on it, because `splitlines` yields one empty line that
fails the `split(' ', 1)` unpacking. -/
theorem C9_counterexample :
    VMCollection.refresh_cache "\n" true ⟨none, [], 0⟩ =
      .error .valueError := by decide

/-- Claim C9 (amended): the pool-driver listing parses an
empty-but-line-terminated payload as an empty collection, but the VM
listing does not: it yields an empty collection only for the completely
empty payload and raises `ValueError` on the line-terminated empty
payload. -/
theorem C9_empty_listing :
    QubesBase.parse_pool_drivers "\n" = .ok [] ∧
    VMCollection.refresh_cache "" true ⟨none, [], 0⟩ = .ok (⟨some [], [], 0⟩, 1) ∧
    VMCollection.refresh_cache "\n" true ⟨none, [], 0⟩ = .error .valueError := by
  exact ⟨by decide, by decide, by decide⟩

/-- Claim C3: for every well-formed listing payload (each line parses and
names are unique, as the data model requires), a forced `refresh_cache`
followed by `keys()` yields exactly the names appearing in the payload, in
order, and the cached properties mapping of each name is the dict of the
key=value tokens parsed from that name's line. -/
theorem C3_refresh_keys (p q : String) (st st1 : CollState) (num : Nat)
    (entries : List (String × Props))
    (hp : parseVMListing p = some entries)
    (hnd : (entries.map Prod.fst).Nodup)
    (hr : VMCollection.refresh_cache p true st = .ok (st1, num)) :
    VMCollection.keys q st1 = .ok (entries.map Prod.fst, st1, 0) ∧
    ∀ e ∈ entries, dictGet (st1.vm_list.getD []) e.1 = some e.2 := by
  obtain ⟨entries2, hp2, hlist, hrec, hfresh, hnum⟩ :=
    refresh_cache_ok_inv (Or.inl rfl) hr
  rw [hp] at hp2
  injection hp2 with hp2
  subst hp2
  constructor
  · rw [keys_cached hlist, buildSnap_keys entries hnd]
  · intro e he
    rw [hlist]
    simp only [Option.getD_some]
    exact buildSnap_get_mem entries hnd e he

theorem C3_refresh_keys_witness :
    (VMCollection.keys "" ⟨some [("vm1", [("class", "QubesVM")])], [], 0⟩ =
      .ok (["vm1"], ⟨some [("vm1", [("class", "QubesVM")])], [], 0⟩, 0)) ∧
    dictGet ((⟨some [("vm1", [("class", "QubesVM")])], [], 0⟩ :
        CollState).vm_list.getD []) "vm1" = some [("class", "QubesVM")] :=
  ⟨(C3_refresh_keys "vm1 class=QubesVM\n" "" ⟨none, [], 0⟩
      ⟨some [("vm1", [("class", "QubesVM")])], [], 0⟩ 1
      [("vm1", [("class", "QubesVM")])] (by decide) (by decide) (by decide)).1,
   (C3_refresh_keys "vm1 class=QubesVM\n" "" ⟨none, [], 0⟩
      ⟨some [("vm1", [("class", "QubesVM")])], [], 0⟩ 1
      [("vm1", [("class", "QubesVM")])] (by decide) (by decide) (by decide)).2
     ("vm1", [("class", "QubesVM")]) (by decide)⟩

/-- Claim C6: during the reconciliation of a refresh, a wrapper instance
whose live name differs from its stored key, but whose live name appears in
the new snapshot with an unchanged class, is re-keyed under its live name
in the instance table rather than dropped.  The side conditions say that
the instance table is a well-formed dict and that no other entry collides
with the live name (the same-tick rename collision the spec records as an
accepted ambiguity). -/
theorem C6_rename_rekey (p : String) (st st1 : CollState) (num : Nat)
    (k : String) (vm : VMObj) (props : Props)
    (hnd : (st.vm_objects.map Prod.fst).Nodup)
    (hmem : (k, vm) ∈ st.vm_objects)
    (hne : k ≠ vm.name)
    (hr : VMCollection.refresh_cache p true st = .ok (st1, num))
    (hsnap : dictGet (st1.vm_list.getD []) vm.name = some props)
    (hcls : dictGet props "class" = some vm.cls)
    (hothers : ∀ e ∈ st.vm_objects, e ≠ (k, vm) →
      e.1 ≠ vm.name ∧ e.2.name ≠ vm.name) :
    dictGet st1.vm_objects vm.name = some vm := by
  obtain ⟨entries, hparse, hlist, hrec, hfresh, hnum⟩ :=
    refresh_cache_ok_inv (Or.inl rfl) hr
  rw [hlist] at hsnap
  simp only [Option.getD_some] at hsnap
  obtain ⟨L1, L2, hsplit⟩ := List.append_of_mem hmem
  have hknotin : k ∉ L2.map Prod.fst := by
    have hnd2 := hnd
    rw [hsplit] at hnd2
    simp only [List.map_append, List.map_cons] at hnd2
    exact (List.nodup_cons.mp (List.nodup_append.mp hnd2).2.1).1
  rw [hsplit] at hrec
  obtain ⟨mid1, ha, hb⟩ := reconcileAux_append_inv hrec
  obtain ⟨mid2, hs, hc⟩ := reconcileAux_cons hb
  have hkeep : keepCond (buildSnap entries) vm := ⟨props, hsnap, hcls⟩
  rcases reconcileStep_cases hs with ⟨rfl, hnk⟩ | ⟨rfl, hrk, _⟩ | ⟨rfl, heq, _⟩
  · exact absurd hkeep hnk
  · have hmid2 : dictGet (dictErase (dictInsert mid1 vm.name vm) k) vm.name =
        some vm := by
      rw [dictGet_erase, if_neg (fun hh => hne hh.symm), dictGet_insert,
        if_pos rfl]
    have hx : ∀ x ∈ L2, x.1 ≠ vm.name ∧ x.2.name ≠ vm.name := by
      intro x hx2
      have hmemx : x ∈ st.vm_objects := by
        rw [hsplit]
        exact List.mem_append_right _ (List.mem_cons_of_mem _ hx2)
      apply hothers x hmemx
      intro hxeq
      apply hknotin
      exact List.mem_map.mpr ⟨x, hx2, by rw [hxeq]⟩
    rw [reconcileAux_pres hx hc, hmid2]
  · exact absurd heq hne

theorem C6_rename_rekey_witness :
    dictGet ((⟨some [("b", [("class", "QubesVM")])],
        [("b", ⟨0, "b", "QubesVM"⟩)], 1⟩ : CollState).vm_objects) "b" =
      some ⟨0, "b", "QubesVM"⟩ :=
  C6_rename_rekey "b class=QubesVM\n"
    ⟨some [], [("a", ⟨0, "b", "QubesVM"⟩)], 1⟩
    ⟨some [("b", [("class", "QubesVM")])], [("b", ⟨0, "b", "QubesVM"⟩)], 1⟩ 1
    "a" ⟨0, "b", "QubesVM"⟩ [("class", "QubesVM")]
    (by decide) (by decide) (by decide) (by decide) (by decide) (by decide)
    (by decide)

/-- Claim C10: `clear_cache` resets only the cached snapshot, leaving the
wrapper instance table (and the allocation state) unchanged; consequently,
after `clear_cache` followed by the refresh that the next access triggers,
a name still listed with an unchanged class yields the very same wrapper
instance that existed before the invalidation. -/
theorem C10_clear_cache (p : String) (st st1 : CollState) (num : Nat)
    (name : String) (obj : VMObj) (props : Props)
    (hcan : ∀ e ∈ st.vm_objects, e.2.name = e.1)
    (hnd : (st.vm_objects.map Prod.fst).Nodup)
    (hobj : dictGet st.vm_objects name = some obj)
    (hr : VMCollection.refresh_cache p false (VMCollection.clear_cache st) =
      .ok (st1, num))
    (hsnap : dictGet (st1.vm_list.getD []) name = some props)
    (hcls : dictGet props "class" = some obj.cls) :
    (VMCollection.clear_cache st).vm_objects = st.vm_objects ∧
    (VMCollection.clear_cache st).fresh = st.fresh ∧
    (VMCollection.clear_cache st).vm_list = none ∧
    VMCollection.getItem p name (VMCollection.clear_cache st) = .ok (obj, st1) := by
  refine ⟨rfl, rfl, rfl, ?_⟩
  obtain ⟨entries, hparse, hlist, hrec, hfresh, hnum⟩ :=
    refresh_cache_ok_inv (Or.inr rfl) hr
  rw [hlist] at hsnap
  simp only [Option.getD_some] at hsnap
  have hobjname : obj.name = name := hcan (name, obj) (dictGet_mem hobj)
  have hsts : dictGet st1.vm_objects name = some obj := by
    have hkeep : ∀ vm0, (name, vm0) ∈ st.vm_objects →
        keepCond (buildSnap entries) vm0 := by
      intro vm0 hvm
      have hv0 : vm0 = obj := by
        have hg := mem_dictGet hnd hvm
        rw [hobj] at hg
        injection hg with hg
        exact hg.symm
      subst hv0
      exact ⟨props, by rw [hobjname]; exact hsnap, hcls⟩
    rw [reconcileAux_pres_keep hcan hnd hkeep hrec]
    exact hobj
  unfold VMCollection.getItem
  rw [hr]
  simp only [hlist, Option.getD_some, hsnap, hsts]

theorem C10_clear_cache_witness :
    ((VMCollection.clear_cache ⟨some [("vm1", [("class", "QubesVM")])],
        [("vm1", ⟨0, "vm1", "QubesVM"⟩)], 1⟩).vm_objects =
      [("vm1", ⟨0, "vm1", "QubesVM"⟩)]) ∧
    ((VMCollection.clear_cache ⟨some [("vm1", [("class", "QubesVM")])],
        [("vm1", ⟨0, "vm1", "QubesVM"⟩)], 1⟩).fresh = 1) ∧
    ((VMCollection.clear_cache ⟨some [("vm1", [("class", "QubesVM")])],
        [("vm1", ⟨0, "vm1", "QubesVM"⟩)], 1⟩).vm_list = none) ∧
    VMCollection.getItem "vm1 class=QubesVM\n" "vm1"
        (VMCollection.clear_cache ⟨some [("vm1", [("class", "QubesVM")])],
          [("vm1", ⟨0, "vm1", "QubesVM"⟩)], 1⟩) =
      .ok (⟨0, "vm1", "QubesVM"⟩,
        ⟨some [("vm1", [("class", "QubesVM")])],
          [("vm1", ⟨0, "vm1", "QubesVM"⟩)], 1⟩) :=
  C10_clear_cache "vm1 class=QubesVM\n"
    ⟨some [("vm1", [("class", "QubesVM")])], [("vm1", ⟨0, "vm1", "QubesVM"⟩)], 1⟩
    ⟨some [("vm1", [("class", "QubesVM")])], [("vm1", ⟨0, "vm1", "QubesVM"⟩)], 1⟩
    1 "vm1" ⟨0, "vm1", "QubesVM"⟩ [("class", "QubesVM")]
    (by decide) (by decide) (by decide) (by decide) (by decide) (by decide)

/-- Claim C5: across two successive forced refreshes of a well-formed
collection state (each wrapper keyed under its own name, unique keys,
allocation ids below the allocation counter), if the class property of a
name is unchanged then `get(name)` returns the same wrapper instance both
times, and if it changed then `get(name)` returns a new instance (a fresh
allocation id) and the old instance is no longer reachable from the
collection's instance table. -/
theorem C5_identity_stability (p1 p2 q1 q2 : String)
    (st st1 stA st2 stB : CollState) (n1 n2 : Nat) (name c1 c2 : String)
    (obj1 obj2 : VMObj)
    (hcan : ∀ e ∈ st.vm_objects, e.2.name = e.1)
    (hnd : (st.vm_objects.map Prod.fst).Nodup)
    (hid : ∀ e ∈ st.vm_objects, e.2.oid < st.fresh)
    (h1 : VMCollection.refresh_cache p1 true st = .ok (st1, n1))
    (hc1 : snapClassOf st1 name = some c1)
    (hg1 : VMCollection.getItem q1 name st1 = .ok (obj1, stA))
    (h2 : VMCollection.refresh_cache p2 true stA = .ok (st2, n2))
    (hc2 : snapClassOf st2 name = some c2)
    (hg2 : VMCollection.getItem q2 name st2 = .ok (obj2, stB)) :
    (c1 = c2 → obj2 = obj1) ∧
    (c1 ≠ c2 → obj2.oid ≠ obj1.oid ∧ ∀ e ∈ stB.vm_objects, e.2 ≠ obj1) := by
  obtain ⟨e1, hp1, hlist1, hrec1, hfresh1, -⟩ :=
    refresh_cache_ok_inv (Or.inl rfl) h1
  have hsub1 : st1.vm_objects.Sublist st.vm_objects :=
    reconcileAux_sublist hcan hrec1
  have hcan1 : ∀ e ∈ st1.vm_objects, e.2.name = e.1 :=
    fun e he => hcan e (hsub1.subset he)
  have hnd1 : (st1.vm_objects.map Prod.fst).Nodup :=
    hnd.sublist (hsub1.map Prod.fst)
  have hid1 : ∀ e ∈ st1.vm_objects, e.2.oid < st1.fresh := by
    intro e he
    rw [hfresh1]
    exact hid e (hsub1.subset he)
  unfold snapClassOf at hc1
  rw [hlist1] at hc1
  simp only [Option.getD_some] at hc1
  cases hq1 : dictGet (buildSnap e1) name with
  | none =>
    rw [hq1] at hc1
    exact Option.noConfusion hc1
  | some props1 =>
  rw [hq1] at hc1
  have hcc1 : dictGet props1 "class" = some c1 := hc1
  have key : dictGet stA.vm_objects name = some obj1 ∧ obj1.cls = c1 ∧
      obj1.name = name ∧ stA.vm_list = some (buildSnap e1) ∧
      (∀ e ∈ stA.vm_objects, e.2.name = e.1) ∧
      (stA.vm_objects.map Prod.fst).Nodup ∧
      (∀ e ∈ stA.vm_objects, e.2.oid < stA.fresh) ∧ obj1.oid < stA.fresh := by
    cases ho1 : dictGet st1.vm_objects name with
    | some vm =>
      rw [getItem_cached_existing hlist1 hq1 ho1] at hg1
      injection hg1 with hg1
      rw [Prod.mk.injEq] at hg1
      obtain ⟨hobj1, hstA⟩ := hg1
      subst hobj1
      subst hstA
      obtain ⟨horig, hkeepall⟩ := reconcileAux_survival hcan hnd hrec1 ho1
      have hvname : vm.name = name := hcan1 (name, vm) (dictGet_mem ho1)
      obtain ⟨propsX, hpX, hcX⟩ := hkeepall vm (dictGet_mem horig)
      rw [hvname] at hpX
      rw [hq1] at hpX
      injection hpX with hpX
      subst hpX
      rw [hcc1] at hcX
      injection hcX with hcX
      exact ⟨ho1, hcX.symm, hvname, hlist1, hcan1, hnd1, hid1,
        hid1 (name, vm) (dictGet_mem ho1)⟩
    | none =>
      rw [getItem_cached_fresh hlist1 hq1 ho1 hcc1] at hg1
      injection hg1 with hg1
      rw [Prod.mk.injEq] at hg1
      obtain ⟨hobj1, hstA⟩ := hg1
      subst hobj1
      subst hstA
      have hnotin : name ∉ st1.vm_objects.map Prod.fst := dictGet_none_iff.mp ho1
      have hins : dictInsert st1.vm_objects name ⟨st1.fresh, name, c1⟩ =
          st1.vm_objects ++ [(name, ⟨st1.fresh, name, c1⟩)] :=
        dictInsert_of_get_none _ ho1
      refine ⟨?_, rfl, rfl, hlist1, ?_, ?_, ?_, Nat.lt_succ_self _⟩
      · show dictGet (dictInsert st1.vm_objects name ⟨st1.fresh, name, c1⟩)
          name = some ⟨st1.fresh, name, c1⟩
        rw [dictGet_insert, if_pos rfl]
      · intro e he
        rw [show ({ st1 with
            vm_objects := dictInsert st1.vm_objects name ⟨st1.fresh, name, c1⟩
            fresh := st1.fresh + 1 } : CollState).vm_objects =
          dictInsert st1.vm_objects name ⟨st1.fresh, name, c1⟩ from rfl, hins] at he
        rcases List.mem_append.mp he with he | he
        · exact hcan1 e he
        · simp only [List.mem_singleton] at he
          subst he
          rfl
      · show ((dictInsert st1.vm_objects name
          ⟨st1.fresh, name, c1⟩).map Prod.fst).Nodup
        rw [hins]
        simp only [List.map_append, List.map_cons, List.map_nil]
        refine hnd1.append (by simp) ?_
        intro x hx hmem
        simp only [List.mem_singleton] at hmem
        subst hmem
        exact hnotin hx
      · intro e he
        rw [show ({ st1 with
            vm_objects := dictInsert st1.vm_objects name ⟨st1.fresh, name, c1⟩
            fresh := st1.fresh + 1 } : CollState).vm_objects =
          dictInsert st1.vm_objects name ⟨st1.fresh, name, c1⟩ from rfl, hins] at he
        show e.2.oid < st1.fresh + 1
        rcases List.mem_append.mp he with he | he
        · exact Nat.lt_succ_of_lt (hid1 e he)
        · simp only [List.mem_singleton] at he
          subst he
          exact Nat.lt_succ_self _
  obtain ⟨A1, A2, A3, A8, hcanA, hndA, hidA, hoidA⟩ := key
  obtain ⟨e2, hp2e, hlist2, hrec2, hfresh2, -⟩ :=
    refresh_cache_ok_inv (Or.inl rfl) h2
  unfold snapClassOf at hc2
  rw [hlist2] at hc2
  simp only [Option.getD_some] at hc2
  cases hq2 : dictGet (buildSnap e2) name with
  | none =>
    rw [hq2] at hc2
    exact Option.noConfusion hc2
  | some props2 =>
  rw [hq2] at hc2
  have hcc2 : dictGet props2 "class" = some c2 := hc2
  constructor
  · intro hceq
    have hkeep : ∀ vm0, (name, vm0) ∈ stA.vm_objects →
        keepCond (buildSnap e2) vm0 := by
      intro vm0 hvm
      have hv0 : vm0 = obj1 := by
        have hgv := mem_dictGet hndA hvm
        rw [A1] at hgv
        injection hgv with hgv
        exact hgv.symm
      subst hv0
      exact ⟨props2, by rw [A3]; exact hq2, by rw [A2, hceq]; exact hcc2⟩
    have hst2 : dictGet st2.vm_objects name = some obj1 := by
      rw [reconcileAux_pres_keep hcanA hndA hkeep hrec2]
      exact A1
    rw [getItem_cached_existing hlist2 hq2 hst2] at hg2
    injection hg2 with hg2
    rw [Prod.mk.injEq] at hg2
    exact hg2.1.symm
  · intro hcne
    have hnk : ¬ keepCond (buildSnap e2) obj1 := by
      rintro ⟨propsY, hpY, hcY⟩
      rw [A3] at hpY
      rw [hq2] at hpY
      injection hpY with hpY
      subst hpY
      rw [hcc2] at hcY
      injection hcY with hcY
      rw [A2] at hcY
      exact hcne hcY.symm
    have hmemA : (name, obj1) ∈ stA.vm_objects := dictGet_mem A1
    have hst2none : dictGet st2.vm_objects name = none :=
      reconcileAux_erased hcanA hndA hmemA hnk hrec2
    rw [getItem_cached_fresh hlist2 hq2 hst2none hcc2] at hg2
    injection hg2 with hg2
    rw [Prod.mk.injEq] at hg2
    obtain ⟨hobj2, hstB⟩ := hg2
    have hlt : obj1.oid < st2.fresh := by
      rw [hfresh2]
      exact hoidA
    constructor
    · rw [← hobj2]
      show st2.fresh ≠ obj1.oid
      omega
    · have hBobjs : stB.vm_objects =
          dictInsert st2.vm_objects name ⟨st2.fresh, name, c2⟩ := by
        rw [← hstB]
      intro e he heq
      rw [hBobjs, dictInsert_of_get_none _ hst2none] at he
      rcases List.mem_append.mp he with he | he
      · have hsub2 : st2.vm_objects.Sublist stA.vm_objects :=
          reconcileAux_sublist hcanA hrec2
        have hnd2 : (st2.vm_objects.map Prod.fst).Nodup :=
          hndA.sublist (hsub2.map Prod.fst)
        have hcanE : e.2.name = e.1 := hcanA e (hsub2.subset he)
        have he1 : e.1 = name := by rw [← hcanE, heq, A3]
        have hgg : dictGet st2.vm_objects e.1 = some e.2 :=
          mem_dictGet hnd2 (by rw [Prod.mk.eta]; exact he)
        rw [he1, heq] at hgg
        rw [hst2none] at hgg
        exact Option.noConfusion hgg
      · simp only [List.mem_singleton] at he
        subst he
        have : obj1.oid = st2.fresh := by rw [← heq]
        omega

theorem C5_identity_stability_witness :
    (("QubesVM" : String) = "QubesVM" →
      (⟨0, "vm1", "QubesVM"⟩ : VMObj) = ⟨0, "vm1", "QubesVM"⟩) ∧
    (("QubesVM" : String) ≠ "QubesVM" →
      (⟨0, "vm1", "QubesVM"⟩ : VMObj).oid ≠ (⟨0, "vm1", "QubesVM"⟩ : VMObj).oid ∧
      ∀ e ∈ (⟨some [("vm1", [("class", "QubesVM")])],
          [("vm1", ⟨0, "vm1", "QubesVM"⟩)], 1⟩ : CollState).vm_objects,
        e.2 ≠ ⟨0, "vm1", "QubesVM"⟩) :=
  C5_identity_stability "vm1 class=QubesVM\n" "vm1 class=QubesVM\n" "" ""
    ⟨none, [], 0⟩
    ⟨some [("vm1", [("class", "QubesVM")])], [], 0⟩
    ⟨some [("vm1", [("class", "QubesVM")])], [("vm1", ⟨0, "vm1", "QubesVM"⟩)], 1⟩
    ⟨some [("vm1", [("class", "QubesVM")])], [("vm1", ⟨0, "vm1", "QubesVM"⟩)], 1⟩
    ⟨some [("vm1", [("class", "QubesVM")])], [("vm1", ⟨0, "vm1", "QubesVM"⟩)], 1⟩
    1 1 "vm1" "QubesVM" "QubesVM" ⟨0, "vm1", "QubesVM"⟩ ⟨0, "vm1", "QubesVM"⟩
    (by decide) (by decide) (by decide) (by decide) (by decide) (by decide)
    (by decide) (by decide) (by decide)

end QubesApp
